import Mathlib

/-!
RotaryEncoder: a polled quadrature decoder and a push button.

A shallow embedding of `Arduino/libraries/RotaryEncoder/RotaryEncoder.{h,cpp}`.

* Machine integers are natural numbers / integers with explicit reduction
  modulo `2^w`.  Two widths occur: `wi`, the number of bits of `int` and
  `unsigned int`, and `wl`, the number of bits of `unsigned long`.  The C++
  standard guarantees `16 ≤ wi` and `32 ≤ wl` (AVR boards have exactly 16 and 32).
* `digitalRead` is the environment: every `poll` takes the value it reads
  as an argument.
-/

namespace RotaryEncoder

/-! ## Integer conversions -/

/-- Conversion of an `int` value to a `w`-bit unsigned integer: reduction modulo `2^w`. -/
def toUnsigned (w : Nat) (x : Int) : Nat :=
  (x % (2 : Int) ^ w).toNat

/-- Conversion of a `w`-bit unsigned integer to a `w`-bit signed integer
(two's complement wrap-around, what every Arduino tool chain does). -/
def toSigned (w : Nat) (x : Nat) : Int :=
  if x % 2 ^ w < 2 ^ (w - 1) then ((x % 2 ^ w : Nat) : Int)
  else ((x % 2 ^ w : Nat) : Int) - (2 : Int) ^ w

/-! ## Encoder -/

/-- The class `Encoder`: `int _a, _b; unsigned long _buffer;`. -/
structure Encoder where
  _a : Int
  _b : Int
  _buffer : Nat
  deriving DecidableEq, Repr

/-- The constructor `Encoder::Encoder(int a, int b)`: it assigns `_a` and `_b` only;
`_buffer` keeps whatever value `garbage` the storage held. -/
def Encoder.new (a b : Int) (garbage : Nat) : Encoder :=
  { _a := a, _b := b, _buffer := garbage }

/-- The sample `digitalRead(_a) << 1 | digitalRead(_b)` built from the two pin levels. -/
def Encoder.sample (ra rb : Nat) : Nat :=
  ra <<< 1 ||| rb

/-- The method `Encoder::poll`, where `aa` is the value of
`digitalRead(_a) << 1 | digitalRead(_b)`.  Returns the new object and the `int` result. -/
def Encoder.poll (wi wl : Nat) (e : Encoder) (aa : Nat) : Encoder × Int :=
  if aa ≠ e._buffer &&& 0x3 then
    if aa = 3 then
      let aa1 : Nat :=
        if e._buffer = 0x21 ∨ e._buffer = 0x8 ∨ e._buffer = 0x9 then toUnsigned wi (-1)
        else if e._buffer = 0x12 ∨ e._buffer = 0x6 ∨ e._buffer = 0x4 then toUnsigned wi 1
        else toUnsigned wi 0
      ({ e with _buffer := 3 }, toSigned wi aa1)
    else
      ({ e with _buffer :=
          if e._buffer = 3 then aa else (e._buffer <<< 2 ||| (aa &&& 0x3)) % 2 ^ wl }, 0)
  else
    (e, 0)

/-- The results of polling the samples `ss` one after the other. -/
def Encoder.events (wi wl : Nat) : Encoder → List Nat → List Int
  | _, [] => []
  | e, s :: ss => (Encoder.poll wi wl e s).2 :: Encoder.events wi wl (Encoder.poll wi wl e s).1 ss

/-- The object after polling the samples `ss` one after the other. -/
def Encoder.after (wi wl : Nat) : Encoder → List Nat → Encoder
  | e, [] => e
  | e, s :: ss => Encoder.after wi wl (Encoder.poll wi wl e s).1 ss

/-- An encoder resting at a detent: `_buffer = 3`. -/
def Encoder.detent (a b : Int) : Encoder :=
  Encoder.new a b 3

/-! ## PushButton -/

/-- The class `PushButton`: `int _pin; int _state;`. -/
structure PushButton where
  _pin : Int
  _state : Int
  deriving DecidableEq, Repr

/-- The constructor `PushButton::PushButton(int pin)`. -/
def PushButton.new (pin : Int) : PushButton :=
  { _pin := pin, _state := -1 }

/-- The method `PushButton::poll`, where `level` is the value of `digitalRead(_pin)`
(0 = low, 1 = high).  The comparison `aa != _state` converts `_state` to `unsigned int`. -/
def PushButton.poll (wi : Nat) (p : PushButton) (level : Nat) : PushButton × Int :=
  let aa : Nat := level % 2 ^ wi
  if aa ≠ toUnsigned wi p._state then
    ({ p with _state := toSigned wi aa }, if aa ≠ 0 then -1 else 1)
  else
    (p, 0)

/-- The results of polling the levels `ls` one after the other. -/
def PushButton.events (wi : Nat) : PushButton → List Nat → List Int
  | _, [] => []
  | p, l :: ls => (PushButton.poll wi p l).2 :: PushButton.events wi (PushButton.poll wi p l).1 ls

/-- The object after polling the levels `ls` one after the other. -/
def PushButton.after (wi : Nat) : PushButton → List Nat → PushButton
  | p, [] => p
  | p, l :: ls => PushButton.after wi (PushButton.poll wi p l).1 ls

/-! ## Words of the claims about sample sequences -/

/-- A list of samples with consecutive repeats collapsed. -/
def collapse : List Nat → List Nat
  | [] => []
  | [x] => [x]
  | x :: y :: rest => if x = y then collapse (y :: rest) else x :: collapse (y :: rest)

/-- A list of samples with one leading 0, if there is one, removed. -/
def dropLeadingZero : List Nat → List Nat
  | [] => []
  | x :: rest => if x = 0 then rest else x :: rest

/-- The two bits of a sample exchanged: 1 and 2 change places, 0 and 3 stay. -/
def swap (s : Nat) : Nat :=
  if s = 1 then 2 else if s = 2 then 1 else s

/-- The result announced for the intermediate samples `L` of one click (oldest first,
repeats collapsed): +1 for 1,0,2 and 1,2 and 1,0, then -1 for 2,0,1 and 2,0 and 2,1,
each after removal of one leading 0, and 0 otherwise. -/
def expected (L : List Nat) : Int :=
  if dropLeadingZero L = [1, 0, 2] ∨ dropLeadingZero L = [1, 2] ∨ dropLeadingZero L = [1, 0]
  then 1
  else if dropLeadingZero L = [2, 0, 1] ∨ dropLeadingZero L = [2, 0] ∨
    dropLeadingZero L = [2, 1] then -1
  else 0

/-! ## An abstract view of the history, used in the proofs

The history is followed as the list `R` of the samples recorded since the last detent,
most recent first; the empty list stands for the detent. -/

/-- The number whose base-4 digits are `R`, lowest digit first. -/
def digits : List Nat → Nat
  | [] => 0
  | d :: ds => d + 4 * digits ds

/-- The history that holds the recorded samples `R`, in an `unsigned long` of `wl` bits. -/
def Trace.encode (wl : Nat) (R : List Nat) : Nat :=
  if R = [] then 3 else digits R % 2 ^ wl

/-- The recorded samples after a call that reads `s`. -/
def Trace.next (R : List Nat) (s : Nat) : List Nat :=
  if s = 3 then []
  else
    match R with
    | [] => [s]
    | x :: R0 => if s = x then x :: R0 else s :: x :: R0

/-- The result of a call that reads `s`. -/
def Trace.out (R : List Nat) (s : Nat) : Int :=
  if s = 3 then expected R.reverse else 0

/-- The results of the calls that read the samples `ss`. -/
def Trace.events : List Nat → List Nat → List Int
  | _, [] => []
  | R, s :: ss => Trace.out R s :: Trace.events (Trace.next R s) ss

/-- The recorded samples after the calls that read the samples `ss`. -/
def Trace.after : List Nat → List Nat → List Nat
  | R, [] => R
  | R, s :: ss => Trace.after (Trace.next R s) ss

/-! ## Arithmetic of the machine integers -/

theorem and_three (h : Nat) : h &&& 0x3 = h % 4 :=
  Nat.and_pow_two_sub_one_eq_mod h 2

theorem shl_or (h s : Nat) (hs : s < 4) : h <<< 2 ||| s = h * 4 + s := by
  have key := Nat.mul_add_lt_is_or (show s < 2 ^ 2 from hs) h
  rw [Nat.shiftLeft_eq, Nat.mul_comm h (2 ^ 2), ← key]

theorem two_pow_split (w : Nat) (hw : 1 ≤ w) : 2 ^ w = 2 * 2 ^ (w - 1) := by
  obtain ⟨k, rfl⟩ : ∃ k, w = k + 1 := ⟨w - 1, by omega⟩
  simp [pow_succ, Nat.mul_comm]

theorem toUnsigned_neg_one (w : Nat) : toUnsigned w (-1) = 2 ^ w - 1 := by
  have hpos : 0 < 2 ^ w := Nat.two_pow_pos _
  have hcast : ((2 : Int) ^ w) = ((2 ^ w : Nat) : Int) := by push_cast; rfl
  have hmod : (-1 : Int) % (2 : Int) ^ w = ((2 ^ w - 1 : Nat) : Int) := by
    rw [hcast, ← Int.add_emod_self, Int.emod_eq_of_lt (by omega) (by omega)]
    omega
  unfold toUnsigned
  rw [hmod]
  exact Int.toNat_ofNat _

theorem toUnsigned_ofNat (w n : Nat) : toUnsigned w (n : Int) = n % 2 ^ w := by
  unfold toUnsigned
  have hcast : ((2 : Int) ^ w) = ((2 ^ w : Nat) : Int) := by push_cast; rfl
  rw [hcast, ← Int.ofNat_emod]
  exact Int.toNat_ofNat _

theorem toSigned_small (w x : Nat) (hw : 1 ≤ w) (hx : x < 2 ^ (w - 1)) :
    toSigned w x = (x : Int) := by
  have h2 := two_pow_split w hw
  have hlt : x < 2 ^ w := by omega
  unfold toSigned
  rw [Nat.mod_eq_of_lt hlt, if_pos hx]

theorem toSigned_neg_one (w : Nat) (hw : 1 ≤ w) : toSigned w (toUnsigned w (-1)) = -1 := by
  have h2 := two_pow_split w hw
  have hpos : 0 < 2 ^ (w - 1) := Nat.two_pow_pos _
  have hcast : ((2 : Int) ^ w) = ((2 ^ w : Nat) : Int) := by push_cast; rfl
  rw [toUnsigned_neg_one]
  unfold toSigned
  rw [Nat.mod_eq_of_lt (by omega), if_neg (by omega), hcast]
  omega

theorem toSigned_one (w : Nat) (hw : 2 ≤ w) : toSigned w (toUnsigned w 1) = 1 := by
  have h2 := two_pow_split w (by omega)
  have h3 := two_pow_split (w - 1) (by omega)
  have hpos : 0 < 2 ^ (w - 1 - 1) := Nat.two_pow_pos _
  have h1 : toUnsigned w 1 = 1 := by
    have := toUnsigned_ofNat w 1
    rw [Nat.mod_eq_of_lt (by omega)] at this
    exact_mod_cast this
  rw [h1, toSigned_small w 1 (by omega) (by omega)]
  rfl

theorem toSigned_zero (w : Nat) : toSigned w (toUnsigned w 0) = 0 := by
  have hpos : 0 < 2 ^ (w - 1) := Nat.two_pow_pos _
  have h0 : toUnsigned w 0 = 0 := by
    have := toUnsigned_ofNat w 0
    simpa using this
  rw [h0]
  unfold toSigned
  simp [hpos]

/-- Two pin levels make a sample in {0,1,2,3}: twice the level of pin a plus that of pin b. -/
theorem Encoder.sample_eq (ra rb : Nat) (ha : ra ≤ 1) (hb : rb ≤ 1) :
    Encoder.sample ra rb = 2 * ra + rb ∧ Encoder.sample ra rb < 4 := by
  interval_cases ra <;> interval_cases rb <;> decide

/-! ## One call of `Encoder::poll` -/

theorem Encoder.poll_same (wi wl : Nat) (e : Encoder) (aa : Nat) (h : aa = e._buffer % 4) :
    Encoder.poll wi wl e aa = (e, 0) := by
  unfold Encoder.poll
  rw [and_three, if_neg (by simpa using h)]

theorem Encoder.poll_detent (wi wl : Nat) (hwi : 16 ≤ wi) (e : Encoder)
    (hne : e._buffer % 4 ≠ 3) :
    Encoder.poll wi wl e 3 =
      ({ e with _buffer := 3 },
        if e._buffer = 0x21 ∨ e._buffer = 0x8 ∨ e._buffer = 0x9 then -1
        else if e._buffer = 0x12 ∨ e._buffer = 0x6 ∨ e._buffer = 0x4 then 1 else 0) := by
  unfold Encoder.poll
  rw [and_three, if_pos (by simpa using Ne.symm hne), if_pos rfl]
  by_cases h1 : e._buffer = 0x21 ∨ e._buffer = 0x8 ∨ e._buffer = 0x9
  · simp only [if_pos h1, toSigned_neg_one wi (by omega)]
  · by_cases h2 : e._buffer = 0x12 ∨ e._buffer = 0x6 ∨ e._buffer = 0x4
    · simp only [if_neg h1, if_pos h2, toSigned_one wi (by omega)]
    · simp only [if_neg h1, if_neg h2, toSigned_zero]

theorem Encoder.poll_record (wi wl : Nat) (e : Encoder) (aa : Nat) (haa : aa < 3)
    (hne : aa ≠ e._buffer % 4) :
    Encoder.poll wi wl e aa =
      ({ e with _buffer := if e._buffer = 3 then aa else (e._buffer * 4 + aa) % 2 ^ wl }, 0) := by
  unfold Encoder.poll
  simp only [and_three]
  rw [if_pos hne, if_neg (by omega), Nat.mod_eq_of_lt (show aa < 4 by omega),
    shl_or _ _ (by omega)]

/-- One call of `poll` on an object with a history that cannot overflow, written out
on the three fields. -/
theorem Encoder.poll_mk (wi wl : Nat) (hwi : 16 ≤ wi) (hwl : 32 ≤ wl) (pa pb : Int)
    (h s : Nat) (hs : s < 4) (hh : h < 2 ^ 30) :
    Encoder.poll wi wl { _a := pa, _b := pb, _buffer := h } s =
      if s = h % 4 then ({ _a := pa, _b := pb, _buffer := h }, 0)
      else if s = 3 then
        ({ _a := pa, _b := pb, _buffer := 3 },
          if h = 0x21 ∨ h = 0x8 ∨ h = 0x9 then -1
          else if h = 0x12 ∨ h = 0x6 ∨ h = 0x4 then 1 else 0)
      else ({ _a := pa, _b := pb, _buffer := if h = 3 then s else h * 4 + s }, 0) := by
  by_cases h1 : s = h % 4
  · rw [if_pos h1, Encoder.poll_same _ _ _ _ h1]
  · rw [if_neg h1]
    by_cases h2 : s = 3
    · subst h2
      rw [if_pos rfl, Encoder.poll_detent wi wl hwi _ (fun h => h1 h.symm)]
    · rw [if_neg h2, Encoder.poll_record wi wl _ s (by omega) h1]
      have hpow : 2 ^ 32 ≤ 2 ^ wl := Nat.pow_le_pow_right (by norm_num) hwl
      have hlt : h * 4 + s < 2 ^ wl := by
        have : (2 : Nat) ^ 32 = 4 * 2 ^ 30 := by norm_num
        omega
      simp only [Nat.mod_eq_of_lt hlt]

/-- After a call that read `aa`, the two low bits of the history are `aa`. -/
theorem Encoder.poll_low_bits (wi wl : Nat) (hwl : 2 ≤ wl) (e : Encoder) (aa : Nat)
    (haa : aa < 4) : (Encoder.poll wi wl e aa).1._buffer % 4 = aa := by
  have hdvd : 4 ∣ 2 ^ wl := by
    have : (4 : Nat) = 2 ^ 2 := by norm_num
    rw [this]
    exact Nat.pow_dvd_pow 2 hwl
  unfold Encoder.poll
  simp only [and_three]
  by_cases h1 : aa = e._buffer % 4
  · rw [if_neg (by simpa using h1)]
    exact h1.symm
  · rw [if_pos h1]
    by_cases h2 : aa = 3
    · rw [if_pos h2, h2]
      rfl
    · rw [if_neg h2]
      by_cases h3 : e._buffer = 3
      · simp only [if_pos h3]
        exact Nat.mod_eq_of_lt haa
      · simp only [if_neg h3]
        rw [Nat.mod_eq_of_lt haa, shl_or _ _ haa, Nat.mod_mod_of_dvd _ hdvd]
        omega

/-! ## Sequences of calls -/

theorem Encoder.events_append (wi wl : Nat) (e : Encoder) (xs ys : List Nat) :
    Encoder.events wi wl e (xs ++ ys) =
      Encoder.events wi wl e xs ++ Encoder.events wi wl (Encoder.after wi wl e xs) ys := by
  induction xs generalizing e with
  | nil => rfl
  | cons x xs ih => simp [Encoder.events, Encoder.after, ih]

theorem Encoder.after_append (wi wl : Nat) (e : Encoder) (xs ys : List Nat) :
    Encoder.after wi wl e (xs ++ ys) = Encoder.after wi wl (Encoder.after wi wl e xs) ys := by
  induction xs generalizing e with
  | nil => rfl
  | cons x xs ih => simp [Encoder.after, ih]

theorem Encoder.events_length (wi wl : Nat) (e : Encoder) (xs : List Nat) :
    (Encoder.events wi wl e xs).length = xs.length := by
  induction xs generalizing e with
  | nil => rfl
  | cons x xs ih => simp [Encoder.events, ih]

/-- Polling again and again the sample held in the two low bits changes nothing. -/
theorem Encoder.stable (wi wl : Nat) (e : Encoder) (s : Nat) (h : s = e._buffer % 4) (n : Nat) :
    Encoder.events wi wl e (List.replicate n s) = List.replicate n 0 ∧
      Encoder.after wi wl e (List.replicate n s) = e := by
  induction n with
  | zero => exact ⟨rfl, rfl⟩
  | succ n ih =>
    simp only [List.replicate_succ, Encoder.events, Encoder.after, Encoder.poll_same wi wl e s h]
    exact ⟨by rw [ih.1], ih.2⟩

/-- A block of equal samples in front: nothing happens when the block repeats the low bits. -/
theorem Encoder.events_block_same (wi wl : Nat) (e : Encoder) (s : Nat) (h : s = e._buffer % 4)
    (n : Nat) (rest : List Nat) :
    Encoder.events wi wl e (List.replicate n s ++ rest) =
      List.replicate n 0 ++ Encoder.events wi wl e rest := by
  rw [Encoder.events_append, (Encoder.stable wi wl e s h n).1, (Encoder.stable wi wl e s h n).2]

/-- A non-empty block of equal samples in front: only its first call can do something. -/
theorem Encoder.events_block (wi wl : Nat) (hwl : 2 ≤ wl) (e : Encoder) (s : Nat) (hs : s < 4)
    (n : Nat) (rest : List Nat) :
    Encoder.events wi wl e (List.replicate (n + 1) s ++ rest) =
      (Encoder.poll wi wl e s).2 ::
        (List.replicate n 0 ++ Encoder.events wi wl (Encoder.poll wi wl e s).1 rest) := by
  rw [List.replicate_succ, List.cons_append, Encoder.events,
    Encoder.events_block_same wi wl _ s (Encoder.poll_low_bits wi wl hwl e s hs).symm]

/-- A possibly empty block of equal samples in front. -/
theorem Encoder.events_block_any (wi wl : Nat) (hwl : 2 ≤ wl) (e : Encoder) (s : Nat)
    (hs : s < 4) (n : Nat) (rest : List Nat) :
    Encoder.events wi wl e (List.replicate n s ++ rest) =
      if n = 0 then Encoder.events wi wl e rest
      else (Encoder.poll wi wl e s).2 ::
        (List.replicate (n - 1) 0 ++ Encoder.events wi wl (Encoder.poll wi wl e s).1 rest) := by
  cases n with
  | zero => simp
  | succ n =>
    rw [if_neg (by omega), Encoder.events_block wi wl hwl e s hs]
    simp

/-- A possibly empty block of equal samples and nothing else. -/
theorem Encoder.events_replicate_any (wi wl : Nat) (hwl : 2 ≤ wl) (e : Encoder) (s : Nat)
    (hs : s < 4) (n : Nat) :
    Encoder.events wi wl e (List.replicate n s) =
      if n = 0 then [] else (Encoder.poll wi wl e s).2 :: List.replicate (n - 1) 0 := by
  have h := Encoder.events_block_any wi wl hwl e s hs n []
  simpa [Encoder.events] using h

/-- Zero results in front of a list: regrouping of the blocks. -/
theorem zeros_regroup (a b c d : Nat) (tl : List Int) :
    List.replicate a (0 : Int) ++ 0 :: (List.replicate b 0 ++ 0 :: (List.replicate c 0 ++
      0 :: (List.replicate d 0 ++ tl))) =
    List.replicate (a + (b + 1) + (c + 1) + (d + 1)) 0 ++ tl := by
  have h : ∀ (n : Nat) (l : List Int),
      (0 : Int) :: (List.replicate n 0 ++ l) = List.replicate (n + 1) 0 ++ l := by
    intro n l
    rw [List.replicate_succ, List.cons_append]
  rw [h, h, h, ← List.append_assoc, ← List.append_assoc, ← List.append_assoc,
    List.append_replicate_replicate, List.append_replicate_replicate,
    List.append_replicate_replicate]

/-! ## Clicks -/

/-- C1: starting at the detent (history 3), polling 3 (a times), then 1 (b ≥ 1 times),
then 0 (c ≥ 1 times), then 2 (d ≥ 1 times), then 3 (e ≥ 1 times) returns 0 on each of the
first a+b+c+d calls, +1 on the next call (the first that reads 3 after the 2s) and 0 on
the e-1 calls that follow. -/
theorem Encoder.full_clockwise_click (wi wl : Nat) (hwi : 16 ≤ wi) (hwl : 32 ≤ wl)
    (pa pb : Int) (a b c d e : Nat) (hb : 1 ≤ b) (hc : 1 ≤ c) (hd : 1 ≤ d) (he : 1 ≤ e) :
    Encoder.events wi wl (Encoder.detent pa pb)
        (List.replicate a 3 ++ (List.replicate b 1 ++ (List.replicate c 0 ++
          (List.replicate d 2 ++ List.replicate e 3)))) =
      List.replicate (a + b + c + d) 0 ++ 1 :: List.replicate (e - 1) 0 := by
  obtain ⟨b, rfl⟩ : ∃ k, b = k + 1 := ⟨b - 1, by omega⟩
  obtain ⟨c, rfl⟩ : ∃ k, c = k + 1 := ⟨c - 1, by omega⟩
  obtain ⟨d, rfl⟩ : ∃ k, d = k + 1 := ⟨d - 1, by omega⟩
  obtain ⟨e, rfl⟩ : ∃ k, e = k + 1 := ⟨e - 1, by omega⟩
  have hwl2 : 2 ≤ wl := by omega
  have p1 : Encoder.poll wi wl { _a := pa, _b := pb, _buffer := 3 } 1 =
      ({ _a := pa, _b := pb, _buffer := 1 }, 0) := by
    rw [Encoder.poll_mk wi wl hwi hwl pa pb 3 1 (by decide) (by decide)]; rfl
  have p2 : Encoder.poll wi wl { _a := pa, _b := pb, _buffer := 1 } 0 =
      ({ _a := pa, _b := pb, _buffer := 4 }, 0) := by
    rw [Encoder.poll_mk wi wl hwi hwl pa pb 1 0 (by decide) (by decide)]; rfl
  have p3 : Encoder.poll wi wl { _a := pa, _b := pb, _buffer := 4 } 2 =
      ({ _a := pa, _b := pb, _buffer := 18 }, 0) := by
    rw [Encoder.poll_mk wi wl hwi hwl pa pb 4 2 (by decide) (by decide)]; rfl
  have p4 : Encoder.poll wi wl { _a := pa, _b := pb, _buffer := 18 } 3 =
      ({ _a := pa, _b := pb, _buffer := 3 }, 1) := by
    rw [Encoder.poll_mk wi wl hwi hwl pa pb 18 3 (by decide) (by decide)]; rfl
  have hlast : List.replicate (e + 1) 3 = List.replicate (e + 1) 3 ++ [] := by simp
  unfold Encoder.detent Encoder.new
  rw [hlast, Encoder.events_block_same wi wl { _a := pa, _b := pb, _buffer := 3 } 3 rfl,
    Encoder.events_block wi wl hwl2 _ 1 (by decide), p1,
    Encoder.events_block wi wl hwl2 _ 0 (by decide), p2,
    Encoder.events_block wi wl hwl2 _ 2 (by decide), p3,
    Encoder.events_block wi wl hwl2 _ 3 (by decide), p4]
  simp only [Encoder.events, List.append_nil, Nat.add_sub_cancel]
  exact zeros_regroup a b c d _

/-- The samples 3,1,0,2,3 of the scenario of C1, on a board with 16-bit `int` and
32-bit `long`: the results are 0,0,0,0,1. -/
theorem Encoder.full_clockwise_click_witness :
    (16 ≤ 16 ∧ 32 ≤ 32 ∧ 1 ≤ 1) ∧
      Encoder.events 16 32 (Encoder.detent 2 3) [3, 1, 0, 2, 3] = [0, 0, 0, 0, 1] :=
  ⟨by decide,
    Encoder.full_clockwise_click 16 32 (by decide) (by decide) 2 3 1 1 1 1 1
      (by decide) (by decide) (by decide) (by decide)⟩

/-- C2: starting at the detent (history 3), polling 3 (a times), then 2 (b ≥ 1 times),
then 0 (c ≥ 1 times), then 1 (d ≥ 1 times), then 3 (e ≥ 1 times) returns 0 on each of the
first a+b+c+d calls, -1 on the next call (the first that reads 3 after the 1s) and 0 on
the e-1 calls that follow. -/
theorem Encoder.full_counter_clockwise_click (wi wl : Nat) (hwi : 16 ≤ wi) (hwl : 32 ≤ wl)
    (pa pb : Int) (a b c d e : Nat) (hb : 1 ≤ b) (hc : 1 ≤ c) (hd : 1 ≤ d) (he : 1 ≤ e) :
    Encoder.events wi wl (Encoder.detent pa pb)
        (List.replicate a 3 ++ (List.replicate b 2 ++ (List.replicate c 0 ++
          (List.replicate d 1 ++ List.replicate e 3)))) =
      List.replicate (a + b + c + d) 0 ++ (-1) :: List.replicate (e - 1) 0 := by
  obtain ⟨b, rfl⟩ : ∃ k, b = k + 1 := ⟨b - 1, by omega⟩
  obtain ⟨c, rfl⟩ : ∃ k, c = k + 1 := ⟨c - 1, by omega⟩
  obtain ⟨d, rfl⟩ : ∃ k, d = k + 1 := ⟨d - 1, by omega⟩
  obtain ⟨e, rfl⟩ : ∃ k, e = k + 1 := ⟨e - 1, by omega⟩
  have hwl2 : 2 ≤ wl := by omega
  have p1 : Encoder.poll wi wl { _a := pa, _b := pb, _buffer := 3 } 2 =
      ({ _a := pa, _b := pb, _buffer := 2 }, 0) := by
    rw [Encoder.poll_mk wi wl hwi hwl pa pb 3 2 (by decide) (by decide)]; rfl
  have p2 : Encoder.poll wi wl { _a := pa, _b := pb, _buffer := 2 } 0 =
      ({ _a := pa, _b := pb, _buffer := 8 }, 0) := by
    rw [Encoder.poll_mk wi wl hwi hwl pa pb 2 0 (by decide) (by decide)]; rfl
  have p3 : Encoder.poll wi wl { _a := pa, _b := pb, _buffer := 8 } 1 =
      ({ _a := pa, _b := pb, _buffer := 33 }, 0) := by
    rw [Encoder.poll_mk wi wl hwi hwl pa pb 8 1 (by decide) (by decide)]; rfl
  have p4 : Encoder.poll wi wl { _a := pa, _b := pb, _buffer := 33 } 3 =
      ({ _a := pa, _b := pb, _buffer := 3 }, -1) := by
    rw [Encoder.poll_mk wi wl hwi hwl pa pb 33 3 (by decide) (by decide)]; rfl
  have hlast : List.replicate (e + 1) 3 = List.replicate (e + 1) 3 ++ [] := by simp
  unfold Encoder.detent Encoder.new
  rw [hlast, Encoder.events_block_same wi wl { _a := pa, _b := pb, _buffer := 3 } 3 rfl,
    Encoder.events_block wi wl hwl2 _ 2 (by decide), p1,
    Encoder.events_block wi wl hwl2 _ 0 (by decide), p2,
    Encoder.events_block wi wl hwl2 _ 1 (by decide), p3,
    Encoder.events_block wi wl hwl2 _ 3 (by decide), p4]
  simp only [Encoder.events, List.append_nil, Nat.add_sub_cancel]
  exact zeros_regroup a b c d _

/-- The samples 3,2,0,1,3 of the scenario of C2, on a board with 16-bit `int` and
32-bit `long`: the results are 0,0,0,0,-1. -/
theorem Encoder.full_counter_clockwise_click_witness :
    (16 ≤ 16 ∧ 32 ≤ 32 ∧ 1 ≤ 1) ∧
      Encoder.events 16 32 (Encoder.detent 2 3) [3, 2, 0, 1, 3] = [0, 0, 0, 0, -1] :=
  ⟨by decide,
    Encoder.full_counter_clockwise_click 16 32 (by decide) (by decide) 2 3 1 1 1 1 1
      (by decide) (by decide) (by decide) (by decide)⟩

/-- C3, as the code has it: with the second or the third intermediate state of a click
left out the return to the detent reports the direction of the click (+1 for 3,1,2,3 and
3,1,0,3; -1 for 3,2,1,3 and 3,2,0,3); with the first intermediate state left out
(3,0,2,3 and 3,0,1,3) it reports 0. -/
theorem Encoder.one_missed_state (wi wl : Nat) (hwi : 16 ≤ wi) (hwl : 32 ≤ wl) (pa pb : Int) :
    Encoder.events wi wl (Encoder.detent pa pb) [3, 1, 2, 3] = [0, 0, 0, 1] ∧
    Encoder.events wi wl (Encoder.detent pa pb) [3, 1, 0, 3] = [0, 0, 0, 1] ∧
    Encoder.events wi wl (Encoder.detent pa pb) [3, 2, 1, 3] = [0, 0, 0, -1] ∧
    Encoder.events wi wl (Encoder.detent pa pb) [3, 2, 0, 3] = [0, 0, 0, -1] ∧
    Encoder.events wi wl (Encoder.detent pa pb) [3, 0, 2, 3] = [0, 0, 0, 0] ∧
    Encoder.events wi wl (Encoder.detent pa pb) [3, 0, 1, 3] = [0, 0, 0, 0] := by
  simp [Encoder.events, Encoder.detent, Encoder.new, Encoder.poll_mk wi wl hwi hwl]

/-- The six sequences of C3 on a board with 16-bit `int` and 32-bit `long`. -/
theorem Encoder.one_missed_state_witness :
    (16 ≤ 16 ∧ 32 ≤ 32) ∧
    Encoder.events 16 32 (Encoder.detent 2 3) [3, 1, 2, 3] = [0, 0, 0, 1] ∧
    Encoder.events 16 32 (Encoder.detent 2 3) [3, 1, 0, 3] = [0, 0, 0, 1] ∧
    Encoder.events 16 32 (Encoder.detent 2 3) [3, 2, 1, 3] = [0, 0, 0, -1] ∧
    Encoder.events 16 32 (Encoder.detent 2 3) [3, 2, 0, 3] = [0, 0, 0, -1] ∧
    Encoder.events 16 32 (Encoder.detent 2 3) [3, 0, 2, 3] = [0, 0, 0, 0] ∧
    Encoder.events 16 32 (Encoder.detent 2 3) [3, 0, 1, 3] = [0, 0, 0, 0] :=
  ⟨by decide, Encoder.one_missed_state 16 32 (by decide) (by decide) 2 3⟩

/-- C3 as stated fails: after the samples 3,0,2,3 (clockwise click, first intermediate
state missed) the last call returns 0, not +1, and after 3,0,1,3 (counter-clockwise
click, first intermediate state missed) the last call returns 0, not -1. -/
theorem Encoder.one_missed_state_counterexample :
    (Encoder.events 16 32 (Encoder.detent 2 3) [3, 0, 2, 3]).getLast? = some 0 ∧
    (Encoder.events 16 32 (Encoder.detent 2 3) [3, 0, 2, 3]).getLast? ≠ some 1 ∧
    (Encoder.events 16 32 (Encoder.detent 2 3) [3, 0, 1, 3]).getLast? = some 0 ∧
    (Encoder.events 16 32 (Encoder.detent 2 3) [3, 0, 1, 3]).getLast? ≠ some (-1) := by
  decide

/-- C4: starting at the detent, for every sample sequence 3 (a times), 1 (b times),
0 (c times), 2 (d times), 3 (e times), where each count may be zero (the state is left
out) or larger than one (the state is read repeatedly), no call returns -1; and for
every sequence 3 (a times), 2 (b times), 0 (c times), 1 (d times), 3 (e times) no call
returns +1. -/
theorem Encoder.no_opposite_direction (wi wl : Nat) (hwi : 16 ≤ wi) (hwl : 32 ≤ wl)
    (pa pb : Int) (a b c d e : Nat) :
    (∀ ev ∈ Encoder.events wi wl (Encoder.detent pa pb)
        (List.replicate a 3 ++ (List.replicate b 1 ++ (List.replicate c 0 ++
          (List.replicate d 2 ++ List.replicate e 3)))), ev ≠ -1) ∧
    (∀ ev ∈ Encoder.events wi wl (Encoder.detent pa pb)
        (List.replicate a 3 ++ (List.replicate b 2 ++ (List.replicate c 0 ++
          (List.replicate d 1 ++ List.replicate e 3)))), ev ≠ 1) := by
  have hwl2 : 2 ≤ wl := by omega
  unfold Encoder.detent Encoder.new
  rw [Encoder.events_block_same wi wl { _a := pa, _b := pb, _buffer := 3 } 3 rfl,
    Encoder.events_block_same wi wl { _a := pa, _b := pb, _buffer := 3 } 3 rfl]
  constructor
  · intro ev hev hneg
    subst hneg
    rcases Nat.eq_zero_or_pos b with hb | hb <;> rcases Nat.eq_zero_or_pos c with hc | hc <;>
      rcases Nat.eq_zero_or_pos d with hd | hd <;> rcases Nat.eq_zero_or_pos e with he | he <;>
      simp [Encoder.events_block_any wi wl hwl2, Encoder.events_replicate_any wi wl hwl2,
        Encoder.poll_mk wi wl hwi hwl,
        Encoder.events, hb, hc, hd, he, Nat.pos_iff_ne_zero.mp] at hev
  · intro ev hev hpos
    subst hpos
    rcases Nat.eq_zero_or_pos b with hb | hb <;> rcases Nat.eq_zero_or_pos c with hc | hc <;>
      rcases Nat.eq_zero_or_pos d with hd | hd <;> rcases Nat.eq_zero_or_pos e with he | he <;>
      simp [Encoder.events_block_any wi wl hwl2, Encoder.events_replicate_any wi wl hwl2,
        Encoder.poll_mk wi wl hwi hwl,
        Encoder.events, hb, hc, hd, he, Nat.pos_iff_ne_zero.mp] at hev

/-- A clockwise click with the state 1 left out, and a counter-clockwise click with the
state 2 left out, on a board with 16-bit `int` and 32-bit `long`. -/
theorem Encoder.no_opposite_direction_witness :
    (16 ≤ 16 ∧ 32 ≤ 32) ∧
    (∀ ev ∈ Encoder.events 16 32 (Encoder.detent 2 3) [3, 0, 2, 2, 3], ev ≠ -1) ∧
    (∀ ev ∈ Encoder.events 16 32 (Encoder.detent 2 3) [3, 0, 1, 1, 3], ev ≠ 1) :=
  ⟨by decide, Encoder.no_opposite_direction 16 32 (by decide) (by decide) 2 3 1 0 1 2 1⟩

/-- C5 fails on the code: starting at the detent, the samples 3,0,1,0,2,3 record the four
readings 0,1,0,2, which is none of the six sequences, and the last call returns +1;
likewise 3,0,2,0,1,3 ends in -1, and the three readings 0,1,2 and 0,2,1 end in +1 and -1. -/
theorem Encoder.leading_zero_accepted :
    Encoder.events 16 32 (Encoder.detent 2 3) [3, 0, 1, 0, 2, 3] = [0, 0, 0, 0, 0, 1] ∧
    Encoder.events 16 32 (Encoder.detent 2 3) [3, 0, 2, 0, 1, 3] = [0, 0, 0, 0, 0, -1] ∧
    Encoder.events 16 32 (Encoder.detent 2 3) [3, 0, 1, 2, 3] = [0, 0, 0, 0, 1] ∧
    Encoder.events 16 32 (Encoder.detent 2 3) [3, 0, 2, 1, 3] = [0, 0, 0, 0, -1] := by
  decide

/-- C6, as the code has it: starting at the detent, the samples 3,1,3 yield the results
0,0,0: the return to the detent after a single intermediate sample is not reported. -/
theorem Encoder.single_intermediate (wi wl : Nat) (hwi : 16 ≤ wi) (hwl : 32 ≤ wl)
    (pa pb : Int) :
    Encoder.events wi wl (Encoder.detent pa pb) [3, 1, 3] = [0, 0, 0] := by
  simp [Encoder.events, Encoder.detent, Encoder.new, Encoder.poll_mk wi wl hwi hwl]

/-- The scenario of C6 on a board with 16-bit `int` and 32-bit `long`. -/
theorem Encoder.single_intermediate_witness :
    (16 ≤ 16 ∧ 32 ≤ 32) ∧ Encoder.events 16 32 (Encoder.detent 2 3) [3, 1, 3] = [0, 0, 0] :=
  ⟨by decide, Encoder.single_intermediate 16 32 (by decide) (by decide) 2 3⟩

/-- C6 as stated fails: after the samples 3,1,3 the results are 0,0,0 and not 0,0,+1. -/
theorem Encoder.single_intermediate_counterexample :
    Encoder.events 16 32 (Encoder.detent 2 3) [3, 1, 3] ≠ [0, 0, 1] := by
  decide

/-- C7: when the two low bits of the history are not 3 and the history is none of 0x21,
0x8, 0x9, 0x12, 0x6, 0x4, a call that reads 3 returns 0 and sets the history to 3 (the pins
are kept); and starting at the detent the samples 3,1,2,1,3 yield 0,0,0,0,0 and end at the
detent. -/
theorem Encoder.unrecognised_discarded (wi wl : Nat) (hwi : 16 ≤ wi) (hwl : 32 ≤ wl)
    (e : Encoder) (hlow : e._buffer % 4 ≠ 3)
    (hnot : e._buffer ≠ 0x21 ∧ e._buffer ≠ 0x8 ∧ e._buffer ≠ 0x9 ∧
      e._buffer ≠ 0x12 ∧ e._buffer ≠ 0x6 ∧ e._buffer ≠ 0x4) :
    Encoder.poll wi wl e 3 = ({ e with _buffer := 3 }, 0) ∧
    Encoder.events wi wl (Encoder.detent e._a e._b) [3, 1, 2, 1, 3] = [0, 0, 0, 0, 0] ∧
    Encoder.after wi wl (Encoder.detent e._a e._b) [3, 1, 2, 1, 3] = Encoder.detent e._a e._b := by
  obtain ⟨h1, h2, h3, h4, h5, h6⟩ := hnot
  refine ⟨?_, ?_, ?_⟩
  · rw [Encoder.poll_detent wi wl hwi e hlow]
    simp [h1, h2, h3, h4, h5, h6]
  · simp [Encoder.events, Encoder.detent, Encoder.new, Encoder.poll_mk wi wl hwi hwl]
  · simp [Encoder.after, Encoder.detent, Encoder.new, Encoder.poll_mk wi wl hwi hwl]

/-- The history 0x19, recorded from the samples 1,2,1, is discarded by a call that reads 3,
on a board with 16-bit `int` and 32-bit `long`. -/
theorem Encoder.unrecognised_discarded_witness :
    (16 ≤ 16 ∧ 32 ≤ 32 ∧ 0x19 % 4 ≠ 3) ∧
    Encoder.poll 16 32 (Encoder.new 2 3 0x19) 3 = (Encoder.new 2 3 3, 0) ∧
    Encoder.events 16 32 (Encoder.detent 2 3) [3, 1, 2, 1, 3] = [0, 0, 0, 0, 0] ∧
    Encoder.after 16 32 (Encoder.detent 2 3) [3, 1, 2, 1, 3] = Encoder.detent 2 3 :=
  ⟨by decide,
    Encoder.unrecognised_discarded 16 32 (by decide) (by decide) (Encoder.new 2 3 0x19)
      (by decide) (by decide)⟩

/-- C8: for every history and every sample s in {0,1,2,3}, after one call that read s,
any number n of further calls that read s return 0 each and leave the object, its history
included, as that first call left it. -/
theorem Encoder.stable_reading (wi wl : Nat) (hwl : 32 ≤ wl) (e : Encoder) (s : Nat)
    (hs : s < 4) (n : Nat) :
    Encoder.events wi wl (Encoder.poll wi wl e s).1 (List.replicate n s) = List.replicate n 0 ∧
    Encoder.after wi wl (Encoder.poll wi wl e s).1 (List.replicate n s) =
      (Encoder.poll wi wl e s).1 :=
  Encoder.stable wi wl _ s (Encoder.poll_low_bits wi wl (by omega) e s hs).symm n

/-- After a full clockwise turn has been reported, three more calls that read 3 return 0
and leave the history at 3 (16-bit `int`, 32-bit `long`). -/
theorem Encoder.stable_reading_witness :
    (32 ≤ 32 ∧ 3 < 4) ∧
    Encoder.events 16 32 (Encoder.poll 16 32 (Encoder.new 2 3 0x12) 3).1 [3, 3, 3] = [0, 0, 0] ∧
    Encoder.after 16 32 (Encoder.poll 16 32 (Encoder.new 2 3 0x12) 3).1 [3, 3, 3] =
      (Encoder.poll 16 32 (Encoder.new 2 3 0x12) 3).1 :=
  ⟨by decide, Encoder.stable_reading 16 32 (by decide) (Encoder.new 2 3 0x12) 3 (by decide) 3⟩

/-- C9: for every history and every sample the `int` returned by `poll` is -1, 0 or +1;
it is 0 whenever the sample is not 3; and when the sample is 3 and the history is 0x21,
0x8 or 0x9 the value, stored as `unsigned int` and converted back, is exactly -1. -/
theorem Encoder.poll_result (wi wl : Nat) (hwi : 16 ≤ wi) (e : Encoder) (aa : Nat) :
    ((Encoder.poll wi wl e aa).2 = -1 ∨ (Encoder.poll wi wl e aa).2 = 0 ∨
      (Encoder.poll wi wl e aa).2 = 1) ∧
    (aa ≠ 3 → (Encoder.poll wi wl e aa).2 = 0) ∧
    (e._buffer = 0x21 ∨ e._buffer = 0x8 ∨ e._buffer = 0x9 → (Encoder.poll wi wl e 3).2 = -1) := by
  refine ⟨?_, ?_, ?_⟩
  · by_cases h1 : aa = e._buffer % 4
    · rw [Encoder.poll_same wi wl e aa h1]; simp
    · by_cases h2 : aa = 3
      · subst h2
        rw [Encoder.poll_detent wi wl hwi e (fun h => h1 h.symm)]
        by_cases c1 : e._buffer = 0x21 ∨ e._buffer = 0x8 ∨ e._buffer = 0x9
        · simp only [if_pos c1]; simp
        · by_cases c2 : e._buffer = 0x12 ∨ e._buffer = 0x6 ∨ e._buffer = 0x4
          · simp only [if_neg c1, if_pos c2]; simp
          · simp only [if_neg c1, if_neg c2]; simp
      · unfold Encoder.poll
        rw [and_three, if_pos h1, if_neg h2]
        simp
  · intro h2
    by_cases h1 : aa = e._buffer % 4
    · rw [Encoder.poll_same wi wl e aa h1]
    · unfold Encoder.poll
      rw [and_three, if_pos h1, if_neg h2]
  · intro c1
    have hlow : e._buffer % 4 ≠ 3 := by
      rcases c1 with c | c | c <;> rw [c] <;> decide
    rw [Encoder.poll_detent wi wl hwi e hlow]
    simp only [if_pos c1]

/-- On a board with 16-bit `int` the history 0x21 polled with the sample 3 returns -1. -/
theorem Encoder.poll_result_witness :
    16 ≤ 16 ∧
    ((Encoder.poll 16 32 (Encoder.new 2 3 0x21) 3).2 = -1 ∨
      (Encoder.poll 16 32 (Encoder.new 2 3 0x21) 3).2 = 0 ∨
      (Encoder.poll 16 32 (Encoder.new 2 3 0x21) 3).2 = 1) ∧
    ((3 : Nat) ≠ 3 → (Encoder.poll 16 32 (Encoder.new 2 3 0x21) 3).2 = 0) ∧
    ((Encoder.new 2 3 0x21)._buffer = 0x21 ∨ (Encoder.new 2 3 0x21)._buffer = 0x8 ∨
      (Encoder.new 2 3 0x21)._buffer = 0x9 → (Encoder.poll 16 32 (Encoder.new 2 3 0x21) 3).2 = -1) :=
  ⟨by decide, Encoder.poll_result 16 32 (by decide) (Encoder.new 2 3 0x21) 3⟩

/-! ## PushButton -/

theorem two_lt_two_pow_pred (wi : Nat) (hwi : 16 ≤ wi) : 2 < 2 ^ (wi - 1) := by
  have h : 2 ^ 15 ≤ 2 ^ (wi - 1) := Nat.pow_le_pow_right (by norm_num) (by omega)
  have : (2 : Nat) ^ 15 = 32768 := by norm_num
  omega

/-- The first call on a fresh object always reports the level it reads. -/
theorem PushButton.poll_first (wi : Nat) (hwi : 16 ≤ wi) (pin : Int) (l : Nat) (hl : l ≤ 1) :
    PushButton.poll wi (PushButton.new pin) l =
      ({ _pin := pin, _state := (l : Int) }, if l = 0 then 1 else -1) := by
  have hp := two_lt_two_pow_pred wi hwi
  have h2 := two_pow_split wi (by omega)
  unfold PushButton.poll PushButton.new
  simp only [toUnsigned_neg_one, Nat.mod_eq_of_lt (show l < 2 ^ wi by omega)]
  rw [if_pos (by omega), toSigned_small wi l (by omega) (by omega)]
  by_cases h0 : l = 0 <;> simp [h0]

/-- A later call compares the level it reads with the level stored by the previous calls. -/
theorem PushButton.poll_next (wi : Nat) (hwi : 16 ≤ wi) (pin : Int) (prev l : Nat)
    (hprev : prev ≤ 1) (hl : l ≤ 1) :
    PushButton.poll wi { _pin := pin, _state := (prev : Int) } l =
      if l = prev then ({ _pin := pin, _state := (prev : Int) }, 0)
      else ({ _pin := pin, _state := (l : Int) }, if l = 0 then 1 else -1) := by
  have hp := two_lt_two_pow_pred wi hwi
  have h2 := two_pow_split wi (by omega)
  unfold PushButton.poll
  simp only [toUnsigned_ofNat, Nat.mod_eq_of_lt (show l < 2 ^ wi by omega),
    Nat.mod_eq_of_lt (show prev < 2 ^ wi by omega)]
  by_cases h : l = prev
  · rw [if_neg (by simpa using h), if_pos h]
  · rw [if_pos h, if_neg h, toSigned_small wi l (by omega) (by omega)]
    by_cases h0 : l = 0 <;> simp [h0]

/-- The results of the calls that follow a call which read `prev`. -/
theorem PushButton.events_from (wi : Nat) (hwi : 16 ≤ wi) (pin : Int) (ls : List Nat) :
    ∀ prev : Nat, prev ≤ 1 → (∀ l ∈ ls, l ≤ 1) →
      PushButton.events wi { _pin := pin, _state := (prev : Int) } ls =
        List.zipWith (fun p c => if c = p then (0 : Int) else if c = 0 then 1 else -1)
          (prev :: ls) ls := by
  induction ls with
  | nil => intro prev _ _; rfl
  | cons l ls ih =>
    intro prev hprev hls
    have hl : l ≤ 1 := hls l (List.mem_cons_self _ _)
    have hrest : ∀ x ∈ ls, x ≤ 1 := fun x hx => hls x (List.mem_cons_of_mem _ hx)
    rw [PushButton.events, PushButton.poll_next wi hwi pin prev l hprev hl,
      List.zipWith_cons_cons]
    by_cases h : l = prev
    · simp only [if_pos h]
      rw [ih prev hprev hrest, h]
    · simp only [if_neg h]
      rw [ih l hl hrest]

/-- Counting the non-zero results of the edge rule is counting the changes of level. -/
theorem count_edges (xs ys : List Nat) :
    List.countP (fun ev => decide (ev ≠ 0))
        (List.zipWith (fun prev cur => if cur = prev then (0 : Int) else if cur = 0 then 1 else -1)
          xs ys) =
      List.countP (fun pc => decide (pc.2 ≠ pc.1)) (List.zip xs ys) := by
  induction xs generalizing ys with
  | nil => simp
  | cons x xs ih =>
    cases ys with
    | nil => simp
    | cons y ys =>
      rw [List.zipWith_cons_cons, List.zip_cons_cons, List.countP_cons, List.countP_cons, ih]
      by_cases h : y = x
      · simp [h]
      · by_cases h0 : y = 0 <;> simp [h, h0]

/-- C10: polling any sequence of levels (0 = low, 1 = high) on a fresh `PushButton`, every
call but the first returns 0 when the level equals the level of the call before, +1 when
it changed to low and -1 when it changed to high; so, the first call apart, there are as
many non-zero results as positions where the level differs from its predecessor. -/
theorem PushButton.edge_detection (wi : Nat) (hwi : 16 ≤ wi) (pin : Int) (ls : List Nat)
    (hls : ∀ l ∈ ls, l = 0 ∨ l = 1) :
    (PushButton.events wi (PushButton.new pin) ls).tail =
      List.zipWith (fun prev cur => if cur = prev then (0 : Int) else if cur = 0 then 1 else -1)
        ls ls.tail ∧
    List.countP (fun ev => decide (ev ≠ 0)) (PushButton.events wi (PushButton.new pin) ls).tail =
      List.countP (fun pc => decide (pc.2 ≠ pc.1)) (List.zip ls ls.tail) := by
  have hle : ∀ l ∈ ls, l ≤ 1 := fun l hl => by rcases hls l hl with h | h <;> omega
  have key : (PushButton.events wi (PushButton.new pin) ls).tail =
      List.zipWith (fun prev cur => if cur = prev then (0 : Int) else if cur = 0 then 1 else -1)
        ls ls.tail := by
    cases ls with
    | nil => rfl
    | cons l ls =>
      have hl : l ≤ 1 := hle l (List.mem_cons_self _ _)
      have hrest : ∀ x ∈ ls, x ≤ 1 := fun x hx => hle x (List.mem_cons_of_mem _ hx)
      rw [PushButton.events, PushButton.poll_first wi hwi pin l hl, List.tail_cons,
        List.tail_cons]
      exact PushButton.events_from wi hwi pin ls l hl hrest
  refine ⟨key, ?_⟩
  rw [key]
  exact count_edges ls ls.tail

/-- The levels 1,1,0,0,1 on a board with 16-bit `int`: the four calls after the first
return 0,+1,0,-1, two non-zero results for two changes of level. -/
theorem PushButton.edge_detection_witness :
    16 ≤ 16 ∧
    (PushButton.events 16 (PushButton.new 4) [1, 1, 0, 0, 1]).tail = [0, 1, 0, -1] ∧
    List.countP (fun ev => decide (ev ≠ 0))
      (PushButton.events 16 (PushButton.new 4) [1, 1, 0, 0, 1]).tail = 2 :=
  ⟨by decide,
    (PushButton.edge_detection 16 (by decide) 4 [1, 1, 0, 0, 1] (by decide)).1,
    (PushButton.edge_detection 16 (by decide) 4 [1, 1, 0, 0, 1] (by decide)).2⟩

/-- Polling again and again the level that is stored changes nothing. -/
theorem PushButton.events_same (wi : Nat) (hwi : 16 ≤ wi) (pin : Int) (prev : Nat)
    (hprev : prev ≤ 1) (n : Nat) :
    PushButton.events wi { _pin := pin, _state := (prev : Int) } (List.replicate n prev) =
      List.replicate n 0 := by
  induction n with
  | zero => rfl
  | succ n ih =>
    rw [List.replicate_succ, PushButton.events,
      PushButton.poll_next wi hwi pin prev prev hprev hprev, if_pos rfl, ih, List.replicate_succ]

/-- C11, as the code has it: on a fresh `PushButton` (state -1) a first call that reads the
high (released) level returns -1, the result for "up", and each of the n following calls
that still read high returns 0. -/
theorem PushButton.first_poll_released (wi : Nat) (hwi : 16 ≤ wi) (pin : Int) (n : Nat) :
    PushButton.events wi (PushButton.new pin) (List.replicate (n + 1) 1) =
      (-1) :: List.replicate n 0 := by
  rw [List.replicate_succ, PushButton.events, PushButton.poll_first wi hwi pin 1 (by omega)]
  simp only [if_neg (show ¬ (1 : Nat) = 0 by decide)]
  rw [PushButton.events_same wi hwi pin 1 (by omega) n]

/-- A fresh button polled three times with the pin high, on a board with 16-bit `int`. -/
theorem PushButton.first_poll_released_witness :
    16 ≤ 16 ∧ PushButton.events 16 (PushButton.new 4) [1, 1, 1] = [-1, 0, 0] :=
  ⟨by decide, PushButton.first_poll_released 16 (by decide) 4 2⟩

/-- C11 as stated fails: the first call of a fresh `PushButton` that reads the high level
returns -1 and not 0. -/
theorem PushButton.first_poll_released_counterexample :
    (PushButton.poll 16 (PushButton.new 4) 1).2 = -1 ∧
    (PushButton.poll 16 (PushButton.new 4) 1).2 ≠ 0 := by
  decide

/-- C12: on a fresh `PushButton` (state -1, compared as `unsigned int`) a first call that
reads the low (pressed) level returns +1, and each of the n following calls that still
read low returns 0. -/
theorem PushButton.first_poll_pressed (wi : Nat) (hwi : 16 ≤ wi) (pin : Int) (n : Nat) :
    PushButton.events wi (PushButton.new pin) (List.replicate (n + 1) 0) =
      1 :: List.replicate n 0 := by
  rw [List.replicate_succ, PushButton.events, PushButton.poll_first wi hwi pin 0 (by omega)]
  simp only [if_pos]
  exact congrArg _ (PushButton.events_same wi hwi pin 0 (by omega) n)

/-- A fresh button polled three times with the pin low, on a board with 16-bit `int`. -/
theorem PushButton.first_poll_pressed_witness :
    16 ≤ 16 ∧ PushButton.events 16 (PushButton.new 4) [0, 0, 0] = [1, 0, 0] :=
  ⟨by decide, PushButton.first_poll_pressed 16 (by decide) 4 2⟩

/-! ## Invariants of the history -/

/-- C14: for every history and every sample s in {0,1,2,3}, after a call that reads s
the two low bits of the history are s; hence after any sequence of calls that ends with
a call reading s the two low bits are s. -/
theorem Encoder.low_bits_invariant (wi wl : Nat) (hwl : 32 ≤ wl) (e : Encoder)
    (ss : List Nat) (s : Nat) (hs : s < 4) :
    (Encoder.poll wi wl e s).1._buffer % 4 = s ∧
    (Encoder.after wi wl e (ss ++ [s]))._buffer % 4 = s := by
  refine ⟨Encoder.poll_low_bits wi wl (by omega) e s hs, ?_⟩
  rw [Encoder.after_append]
  exact Encoder.poll_low_bits wi wl (by omega) _ s hs

/-- From the history 0x2d the sample 1, alone or after the samples 3,0,2, leaves a history
with low bits 1 (32-bit `long`). -/
theorem Encoder.low_bits_invariant_witness :
    (32 ≤ 32 ∧ 1 < 4) ∧
    (Encoder.poll 16 32 (Encoder.new 2 3 0x2d) 1).1._buffer % 4 = 1 ∧
    (Encoder.after 16 32 (Encoder.new 2 3 0x2d) [3, 0, 2, 1])._buffer % 4 = 1 :=
  ⟨by decide, Encoder.low_bits_invariant 16 32 (by decide) (Encoder.new 2 3 0x2d) [3, 0, 2] 1
    (by decide)⟩

/-- One call keeps the property "low bits 3 only if the history is 3"; after it the
history is 3 exactly when the sample read was 3. -/
theorem Encoder.sentinel_step (wi wl : Nat) (hwl : 2 ≤ wl) (e : Encoder)
    (hinv : e._buffer % 4 = 3 → e._buffer = 3) (s : Nat) (hs : s < 4) :
    ((Encoder.poll wi wl e s).1._buffer % 4 = 3 → (Encoder.poll wi wl e s).1._buffer = 3) ∧
    (s = 3 → (Encoder.poll wi wl e s).1._buffer = 3) ∧
    (s ≠ 3 → (Encoder.poll wi wl e s).1._buffer ≠ 3) := by
  have hlow := Encoder.poll_low_bits wi wl hwl e s hs
  have h3 : s = 3 → (Encoder.poll wi wl e s).1._buffer = 3 := by
    intro h
    subst h
    by_cases h1 : 3 = e._buffer % 4
    · rw [Encoder.poll_same wi wl e 3 h1]
      exact hinv h1.symm
    · unfold Encoder.poll
      rw [and_three, if_pos h1, if_pos rfl]
  refine ⟨fun h => h3 (by omega), h3, ?_⟩
  intro hne h
  rw [h] at hlow
  omega

/-- The property "low bits 3 only if the history is 3" holds after any sequence of calls
that starts from an object with that property. -/
theorem Encoder.sentinel_after (wi wl : Nat) (hwl : 2 ≤ wl) (ss : List Nat)
    (hss : ∀ x ∈ ss, x < 4) :
    ∀ e : Encoder, (e._buffer % 4 = 3 → e._buffer = 3) →
      ((Encoder.after wi wl e ss)._buffer % 4 = 3 → (Encoder.after wi wl e ss)._buffer = 3) := by
  induction ss with
  | nil => intro e h; exact h
  | cons x xs ih =>
    intro e h
    rw [Encoder.after]
    exact ih (fun y hy => hss y (List.mem_cons_of_mem _ hy)) _
      (Encoder.sentinel_step wi wl hwl e h x (hss x (List.mem_cons_self _ _))).1

/-- C15: in every state reached from the detent (history 3) by calls with samples in
{0,1,2,3}, the history has low bits 3 only if it is exactly 3; a further call that reads 3
leaves the history exactly 3, and a further call that reads another sample leaves a
history that is not 3. -/
theorem Encoder.sentinel_invariant (wi wl : Nat) (hwl : 32 ≤ wl) (pa pb : Int)
    (ss : List Nat) (hss : ∀ x ∈ ss, x < 4) (s : Nat) (hs : s < 4) :
    ((Encoder.after wi wl (Encoder.detent pa pb) ss)._buffer % 4 = 3 →
      (Encoder.after wi wl (Encoder.detent pa pb) ss)._buffer = 3) ∧
    (s = 3 →
      (Encoder.poll wi wl (Encoder.after wi wl (Encoder.detent pa pb) ss) s).1._buffer = 3) ∧
    (s ≠ 3 →
      (Encoder.poll wi wl (Encoder.after wi wl (Encoder.detent pa pb) ss) s).1._buffer ≠ 3) := by
  have hreach := Encoder.sentinel_after wi wl (by omega) ss hss (Encoder.detent pa pb)
    (fun _ => rfl)
  have hstep := Encoder.sentinel_step wi wl (by omega) _ hreach s hs
  exact ⟨hreach, hstep.2.1, hstep.2.2⟩

/-- After the samples 3,1,0,2 the history 0x12 has low bits 2, and a call that reads 3
(it returns +1) leaves the history 3 (32-bit `long`). -/
theorem Encoder.sentinel_invariant_witness :
    (32 ≤ 32 ∧ 3 < 4) ∧
    ((Encoder.after 16 32 (Encoder.detent 2 3) [3, 1, 0, 2])._buffer % 4 = 3 →
      (Encoder.after 16 32 (Encoder.detent 2 3) [3, 1, 0, 2])._buffer = 3) ∧
    ((3 : Nat) = 3 →
      (Encoder.poll 16 32 (Encoder.after 16 32 (Encoder.detent 2 3) [3, 1, 0, 2]) 3).1._buffer
        = 3) ∧
    ((3 : Nat) ≠ 3 →
      (Encoder.poll 16 32 (Encoder.after 16 32 (Encoder.detent 2 3) [3, 1, 0, 2]) 3).1._buffer
        ≠ 3) :=
  ⟨by decide, Encoder.sentinel_invariant 16 32 (by decide) 2 3 [3, 1, 0, 2] (by decide) 3
    (by decide)⟩

/-! ## Short sequences: the widths and the pins do not matter -/

/-- While the history stays below `2^30` the results do not depend on the widths, and they
never depend on the pins: a history below `4^k` polled at most `15 - k` times behaves as
on a board with 16-bit `int` and 32-bit `long`. -/
theorem Encoder.events_bounded (wi wl : Nat) (hwi : 16 ≤ wi) (hwl : 32 ≤ wl) (ss : List Nat) :
    ∀ (pa pb qa qb : Int) (h k : Nat), h < 4 ^ k → k + ss.length ≤ 15 → (∀ x ∈ ss, x < 4) →
      Encoder.events wi wl { _a := pa, _b := pb, _buffer := h } ss =
        Encoder.events 16 32 { _a := qa, _b := qb, _buffer := h } ss := by
  induction ss with
  | nil => intros; rfl
  | cons x xs ih =>
    intro pa pb qa qb h k hk hlen hss
    have hx : x < 4 := hss x (List.mem_cons_self _ _)
    have hxs : ∀ y ∈ xs, y < 4 := fun y hy => hss y (List.mem_cons_of_mem _ hy)
    have hlen1 : k + 1 + xs.length ≤ 15 := by simp only [List.length_cons] at hlen; omega
    have hpow : 4 ^ k ≤ 4 ^ 15 := Nat.pow_le_pow_right (by norm_num) (by omega)
    have h30 : h < 2 ^ 30 := by
      have : (4 : Nat) ^ 15 = 2 ^ 30 := by norm_num
      omega
    have hk1 : (4 : Nat) ^ (k + 1) = 4 * 4 ^ k := by rw [pow_succ, Nat.mul_comm]
    have hkpos : 0 < 4 ^ k := Nat.pos_pow_of_pos k (by norm_num)
    rw [Encoder.events, Encoder.events, Encoder.poll_mk wi wl hwi hwl pa pb h x hx h30,
      Encoder.poll_mk 16 32 (by decide) (by decide) qa qb h x hx h30]
    by_cases c1 : x = h % 4
    · simp only [if_pos c1]
      rw [ih pa pb qa qb h (k + 1) (by omega) hlen1 hxs]
    · by_cases c2 : x = 3
      · simp only [if_neg c1, if_pos c2]
        rw [ih pa pb qa qb 3 (k + 1) (by omega) hlen1 hxs]
      · by_cases c3 : h = 3
        · simp only [if_neg c1, if_neg c2, if_pos c3]
          rw [ih pa pb qa qb x (k + 1) (by omega) hlen1 hxs]
        · simp only [if_neg c1, if_neg c2, if_neg c3]
          rw [ih pa pb qa qb (h * 4 + x) (k + 1) (by omega) hlen1 hxs]

/-- At most 14 calls from the detent give the results of a board with 16-bit `int` and
32-bit `long` and pins 0 and 0. -/
theorem Encoder.events_detent_short (wi wl : Nat) (hwi : 16 ≤ wi) (hwl : 32 ≤ wl)
    (pa pb : Int) (ss : List Nat) (hlen : ss.length ≤ 14) (hss : ∀ x ∈ ss, x < 4) :
    Encoder.events wi wl (Encoder.detent pa pb) ss =
      Encoder.events 16 32 (Encoder.detent 0 0) ss :=
  Encoder.events_bounded wi wl hwi hwl ss pa pb 0 0 3 1 (by decide) (by omega) hss

/-- The ways of keeping some of the seven samples between the first and the last detent
of two clockwise clicks, the two that read 0 directly after the first detent and then
2,1 or 2,0 apart, on a board with 16-bit `int` and 32-bit `long`. -/
theorem Encoder.two_clicks_table :
    ∀ keep ∈ List.sublists [1, 0, 2, 3, 1, 0, 2], keep ≠ [0, 2, 1] → keep ≠ [0, 2, 0] →
      ((-1 : Int) ∈ Encoder.events 16 32 (Encoder.detent 0 0) (3 :: keep ++ [3]) ↔
        keep = [2, 1] ∨ keep = [2, 0]) := by
  set_option maxRecDepth 100000 in decide

/-- C13, as the code has it by design: starting at the detent, for every sub-sampling of
two clockwise clicks 3,1,0,2,3,1,0,2,3 that keeps the first and the last detent, other
than 3,0,2,1,3 and 3,0,2,0,3 (nothing is stated about these two), some call returns -1
exactly when the samples kept in between are 2,1 or 2,0 (the 2 of the first click
followed by a single sample of the second, the detent between the clicks missed); in
particular no call returns -1 when the detent between the clicks is kept. -/
theorem Encoder.two_clicks_subsampled (wi wl : Nat) (hwi : 16 ≤ wi) (hwl : 32 ≤ wl)
    (pa pb : Int) (keep : List Nat) (hkeep : List.Sublist keep [1, 0, 2, 3, 1, 0, 2])
    (hne1 : keep ≠ [0, 2, 1]) (hne2 : keep ≠ [0, 2, 0]) :
    ((-1 : Int) ∈ Encoder.events wi wl (Encoder.detent pa pb) (3 :: keep ++ [3]) ↔
      keep = [2, 1] ∨ keep = [2, 0]) ∧
    (3 ∈ keep → (-1 : Int) ∉ Encoder.events wi wl (Encoder.detent pa pb) (3 :: keep ++ [3])) := by
  have hlen : keep.length ≤ 7 := hkeep.length_le
  have hmem : ∀ x ∈ keep, x < 4 := by
    intro x hx
    have hx7 : x ∈ [1, 0, 2, 3, 1, 0, 2] := hkeep.subset hx
    simp only [List.mem_cons, List.mem_singleton, List.not_mem_nil, or_false] at hx7
    omega
  have hshort : Encoder.events wi wl (Encoder.detent pa pb) (3 :: keep ++ [3]) =
      Encoder.events 16 32 (Encoder.detent 0 0) (3 :: keep ++ [3]) := by
    apply Encoder.events_detent_short wi wl hwi hwl
    · simp only [List.cons_append, List.length_cons, List.length_append, List.length_nil]
      omega
    · intro x hx
      simp only [List.cons_append, List.mem_cons, List.mem_append, List.mem_singleton,
        List.not_mem_nil, or_false] at hx
      rcases hx with h | h | h
      · omega
      · exact hmem x h
      · omega
  have htable := Encoder.two_clicks_table keep (List.mem_sublists.mpr hkeep) hne1 hne2
  rw [hshort]
  refine ⟨htable, ?_⟩
  intro h3 hneg
  rcases htable.mp hneg with h | h <;> rw [h] at h3 <;> simp at h3

/-- The 2 of the first click and the 0 of the second, the detent between them missed:
the last call returns -1 (16-bit `int`, 32-bit `long`). -/
theorem Encoder.two_clicks_subsampled_witness :
    (16 ≤ 16 ∧ 32 ≤ 32 ∧ List.Sublist [2, 0] [1, 0, 2, 3, 1, 0, 2] ∧
      [2, 0] ≠ [0, 2, 1] ∧ [2, 0] ≠ [0, 2, 0]) ∧
    (((-1 : Int) ∈ Encoder.events 16 32 (Encoder.detent 2 3) [3, 2, 0, 3] ↔
      [2, 0] = [2, 1] ∨ [2, 0] = [2, 0]) ∧
    (3 ∈ [2, 0] → (-1 : Int) ∉ Encoder.events 16 32 (Encoder.detent 2 3) [3, 2, 0, 3])) :=
  ⟨by decide,
    Encoder.two_clicks_subsampled 16 32 (by decide) (by decide) 2 3 [2, 0]
      (by decide) (by decide) (by decide)⟩

/-- C13 as stated fails: 3,2,1,3 is a sub-sampling of two clockwise clicks (the 2 of the
first click, the 1 of the second, first and last detent) and its last call returns -1. -/
theorem Encoder.two_clicks_subsampled_counterexample :
    List.Sublist [3, 2, 1, 3] [3, 1, 0, 2, 3, 1, 0, 2, 3] ∧
    Encoder.events 16 32 (Encoder.detent 2 3) [3, 2, 1, 3] = [0, 0, 0, -1] := by
  decide

/-- C18 fails on the code: the constructor leaves the history as the storage held it,
and the results of the samples 3,1,0,2,3 depend on it. With the history 0x12 the first
call returns +1, with 0x21 it returns -1, with 7 the click is lost (five results 0);
with the history 0 the results are 0,0,0,0,+1 (16-bit `int`, 32-bit `long`). -/
theorem Encoder.uninitialised_history :
    Encoder.events 16 32 (Encoder.new 2 3 0x12) [3, 1, 0, 2, 3] = [1, 0, 0, 0, 1] ∧
    Encoder.events 16 32 (Encoder.new 2 3 0x21) [3, 1, 0, 2, 3] = [-1, 0, 0, 0, 1] ∧
    Encoder.events 16 32 (Encoder.new 2 3 7) [3, 1, 0, 2, 3] = [0, 0, 0, 0, 0] ∧
    Encoder.events 16 32 (Encoder.new 2 3 0) [3, 1, 0, 2, 3] = [0, 0, 0, 0, 1] := by
  decide

/-! ## The history as a list of recorded samples -/

theorem dropLeadingZero_length (L : List Nat) : L.length ≤ (dropLeadingZero L).length + 1 := by
  cases L with
  | nil => simp [dropLeadingZero]
  | cons x rest =>
    by_cases h : x = 0 <;> simp [dropLeadingZero, h]

/-- Five samples or more are never announced. -/
theorem expected_long (L : List Nat) (h : 5 ≤ L.length) : expected L = 0 := by
  have hlen := dropLeadingZero_length L
  unfold expected
  rw [if_neg, if_neg]
  · rintro (h1 | h1 | h1) <;> rw [h1] at hlen <;> simp at hlen <;> omega
  · rintro (h1 | h1 | h1) <;> rw [h1] at hlen <;> simp at hlen <;> omega

/-- The test of lines 34-35 on a history that holds the recorded samples `R`. -/
theorem classify_digits (wl : Nat) (hwl : 32 ≤ wl) (R : List Nat) (hlt : ∀ x ∈ R, x < 3)
    (hch : List.Chain' (fun a b => a ≠ b) R) :
    (if digits R % 2 ^ wl = 0x21 ∨ digits R % 2 ^ wl = 0x8 ∨ digits R % 2 ^ wl = 0x9 then (-1 : Int)
      else if digits R % 2 ^ wl = 0x12 ∨ digits R % 2 ^ wl = 0x6 ∨ digits R % 2 ^ wl = 0x4 then 1
      else 0) = expected R.reverse := by
  have hpow : 2 ^ 32 ≤ 2 ^ wl := Nat.pow_le_pow_right (by norm_num) hwl
  have h32 : (2 : Nat) ^ 32 = 4294967296 := by norm_num
  rcases R with _ | ⟨a, _ | ⟨b, _ | ⟨c, _ | ⟨d, _ | ⟨e, r⟩⟩⟩⟩⟩
  · simp [digits, expected, dropLeadingZero]
  · have ha : a < 3 := hlt a (by simp)
    rw [Nat.mod_eq_of_lt (by simp only [digits]; omega)]
    interval_cases a <;> decide
  · have ha : a < 3 := hlt a (by simp)
    have hb : b < 3 := hlt b (by simp)
    rw [Nat.mod_eq_of_lt (by simp only [digits]; omega)]
    interval_cases a <;> interval_cases b <;> decide
  · have ha : a < 3 := hlt a (by simp)
    have hb : b < 3 := hlt b (by simp)
    have hc : c < 3 := hlt c (by simp)
    rw [Nat.mod_eq_of_lt (by simp only [digits]; omega)]
    interval_cases a <;> interval_cases b <;> interval_cases c <;> decide
  · have ha : a < 3 := hlt a (by simp)
    have hb : b < 3 := hlt b (by simp)
    have hc : c < 3 := hlt c (by simp)
    have hd : d < 3 := hlt d (by simp)
    have hcd : c ≠ d := by
      simp only [List.chain'_cons, List.chain'_singleton, and_true] at hch
      exact hch.2.2
    rw [Nat.mod_eq_of_lt (by simp only [digits]; omega)]
    interval_cases a <;> interval_cases b <;> interval_cases c <;> interval_cases d <;>
      first
        | exact absurd rfl hcd
        | decide
  · have ha : a < 3 := hlt a (by simp)
    have hb : b < 3 := hlt b (by simp)
    have hc : c < 3 := hlt c (by simp)
    have hd : d < 3 := hlt d (by simp)
    have he : e < 3 := hlt e (by simp)
    have hde : d ≠ e := by
      simp only [List.chain'_cons] at hch
      exact hch.2.2.2.1
    rw [expected_long _ (by simp)]
    have hdvd : 1024 ∣ 2 ^ wl := by
      have : (1024 : Nat) = 2 ^ 10 := by norm_num
      rw [this]
      exact Nat.pow_dvd_pow 2 (by omega)
    have hmod := Nat.mod_mod_of_dvd (digits (a :: b :: c :: d :: e :: r)) hdvd
    have hval : digits (a :: b :: c :: d :: e :: r) =
        a + 4 * (b + 4 * (c + 4 * (d + 4 * (e + 4 * digits r)))) := rfl
    rw [if_neg, if_neg]
    · rintro (h1 | h1 | h1) <;> rw [h1] at hmod <;> omega
    · rintro (h1 | h1 | h1) <;> rw [h1] at hmod <;> omega

theorem shift_mod (D m s : Nat) : (D % m * 4 + s) % m = (s + 4 * D) % m := by
  have h : D % m * 4 + s ≡ D * 4 + s [MOD m] :=
    ((Nat.mod_modEq D m).mul_right 4).add_right s
  have h' : (D % m * 4 + s) % m = (D * 4 + s) % m := h
  rw [h', Nat.add_comm, Nat.mul_comm]

/-- One call of `poll` seen on the recorded samples: when the history holds the recorded
samples `R` (entries below 3, neighbours distinct), the call returns `Trace.out R s` and
leaves the history that holds `Trace.next R s`. -/
theorem Trace.poll_sim (wi wl : Nat) (hwi : 16 ≤ wi) (hwl : 32 ≤ wl) (e : Encoder)
    (R : List Nat) (hlt : ∀ x ∈ R, x < 3) (hch : List.Chain' (fun a b => a ≠ b) R)
    (hbuf : e._buffer = Trace.encode wl R) (s : Nat) (hs : s < 4) :
    Encoder.poll wi wl e s =
        ({ e with _buffer := Trace.encode wl (Trace.next R s) }, Trace.out R s) ∧
      (∀ x ∈ Trace.next R s, x < 3) ∧ List.Chain' (fun a b => a ≠ b) (Trace.next R s) := by
  have hpow : 2 ^ 32 ≤ 2 ^ wl := Nat.pow_le_pow_right (by norm_num) hwl
  have h32 : (2 : Nat) ^ 32 = 4294967296 := by norm_num
  have hdvd : 4 ∣ 2 ^ wl := by
    have : (4 : Nat) = 2 ^ 2 := by norm_num
    rw [this]
    exact Nat.pow_dvd_pow 2 (by omega)
  cases R with
  | nil =>
    have hb3 : e._buffer = 3 := by simpa [Trace.encode] using hbuf
    by_cases h3 : s = 3
    · subst h3
      refine ⟨?_, by simp [Trace.next], by simp [Trace.next]⟩
      rw [Encoder.poll_same wi wl e 3 (by rw [hb3])]
      have hout : Trace.out [] 3 = 0 := by decide
      have henc : Trace.encode wl (Trace.next [] 3) = 3 := by simp [Trace.next, Trace.encode]
      rw [hout, henc]
      cases e
      simp only at hb3
      subst hb3
      rfl
    · have hs3 : s < 3 := by omega
      have hnext : Trace.next [] s = [s] := by simp [Trace.next, h3]
      rw [hnext]
      refine ⟨?_, ?_, by simp⟩
      · rw [Encoder.poll_record wi wl e s hs3 (by rw [hb3]; omega)]
        have henc : Trace.encode wl [s] = s := by
          simp only [Trace.encode, digits]
          rw [if_neg (by simp), Nat.mod_eq_of_lt (by omega)]
          omega
        simp only [hb3, if_pos, henc, Trace.out, if_neg h3]
      · intro x hx
        simp only [List.mem_singleton] at hx
        omega
  | cons x R0 =>
    have hx : x < 3 := hlt x (List.mem_cons_self _ _)
    have henc : Trace.encode wl (x :: R0) = digits (x :: R0) % 2 ^ wl := by
      simp [Trace.encode]
    rw [henc] at hbuf
    have hval : digits (x :: R0) = x + 4 * digits R0 := rfl
    have hmod4 : e._buffer % 4 = x := by
      rw [hbuf, Nat.mod_mod_of_dvd _ hdvd, hval]
      omega
    by_cases h3 : s = 3
    · subst h3
      refine ⟨?_, by simp [Trace.next], by simp [Trace.next]⟩
      rw [Encoder.poll_detent wi wl hwi e (by omega)]
      have hnext : Trace.encode wl (Trace.next (x :: R0) 3) = 3 := by
        simp [Trace.next, Trace.encode]
      have hout : Trace.out (x :: R0) 3 = expected (x :: R0).reverse := by simp [Trace.out]
      rw [hnext, hout, ← classify_digits wl hwl (x :: R0) hlt hch, ← hbuf]
    · have hs3 : s < 3 := by omega
      have hout : Trace.out (x :: R0) s = 0 := by simp [Trace.out, h3]
      by_cases hsx : s = x
      · have hnext : Trace.next (x :: R0) s = x :: R0 := by
          simp only [Trace.next, if_neg h3, if_pos hsx]
        rw [hnext, hout, henc]
        refine ⟨?_, hlt, hch⟩
        rw [Encoder.poll_same wi wl e s (by rw [hmod4, hsx])]
        cases e
        simp only at hbuf
        subst hbuf
        rfl
      · have hnext : Trace.next (x :: R0) s = s :: x :: R0 := by simp [Trace.next, h3, hsx]
        rw [hnext, hout]
        refine ⟨?_, ?_, ?_⟩
        · rw [Encoder.poll_record wi wl e s hs3 (by rw [hmod4]; exact hsx)]
          have hne3 : e._buffer ≠ 3 := by
            intro h
            rw [h] at hmod4
            omega
          have henc2 : Trace.encode wl (s :: x :: R0) = (e._buffer * 4 + s) % 2 ^ wl := by
            simp only [Trace.encode]
            rw [if_neg (by simp), hbuf, shift_mod]
            rfl
          simp only [if_neg hne3, henc2]
        · intro y hy
          rcases List.mem_cons.mp hy with h | h
          · omega
          · exact hlt y h
        · exact List.Chain'.cons hsx hch

/-- A sequence of calls seen on the recorded samples. -/
theorem Trace.events_sim (wi wl : Nat) (hwi : 16 ≤ wi) (hwl : 32 ≤ wl) (ss : List Nat)
    (hss : ∀ x ∈ ss, x < 4) :
    ∀ (e : Encoder) (R : List Nat), (∀ x ∈ R, x < 3) → List.Chain' (fun a b => a ≠ b) R →
      e._buffer = Trace.encode wl R →
      Encoder.events wi wl e ss = Trace.events R ss ∧
      (Encoder.after wi wl e ss)._buffer = Trace.encode wl (Trace.after R ss) ∧
      (∀ x ∈ Trace.after R ss, x < 3) ∧
      List.Chain' (fun a b => a ≠ b) (Trace.after R ss) := by
  induction ss with
  | nil =>
    intro e R hlt hch hbuf
    exact ⟨rfl, hbuf, hlt, hch⟩
  | cons s rest ih =>
    intro e R hlt hch hbuf
    have hs : s < 4 := hss s (List.mem_cons_self _ _)
    have hrest : ∀ x ∈ rest, x < 4 := fun x hx => hss x (List.mem_cons_of_mem _ hx)
    obtain ⟨hpoll, hlt1, hch1⟩ := Trace.poll_sim wi wl hwi hwl e R hlt hch hbuf s hs
    have hnext := ih hrest (Encoder.poll wi wl e s).1 (Trace.next R s) hlt1 hch1
      (by rw [hpoll])
    rw [Encoder.events, Encoder.after, Trace.events, Trace.after]
    refine ⟨?_, hnext.2.1, hnext.2.2.1, hnext.2.2.2⟩
    rw [hnext.1, hpoll]

theorem collapse_cons (s : Nat) (rest : List Nat) :
    collapse (s :: rest) = s :: (collapse (s :: rest)).tail := by
  induction rest generalizing s with
  | nil => rfl
  | cons y rest ih =>
    by_cases h : s = y
    · subst h
      simp only [collapse, if_pos]
      exact ih s
    · simp only [collapse, if_neg h, List.tail_cons]

/-- Without detent samples the recorded samples are the samples read, repeats collapsed. -/
theorem Trace.after_cons (ss : List Nat) (hss : ∀ x ∈ ss, x < 3) :
    ∀ (x : Nat) (R0 : List Nat),
      Trace.after (x :: R0) ss = (collapse (x :: ss)).tail.reverse ++ x :: R0 := by
  induction ss with
  | nil => intro x R0; rfl
  | cons s rest ih =>
    intro x R0
    have hs : s < 3 := hss s (List.mem_cons_self _ _)
    have hrest : ∀ y ∈ rest, y < 3 := fun y hy => hss y (List.mem_cons_of_mem _ hy)
    have h3 : ¬ s = 3 := by omega
    by_cases hsx : s = x
    · have hnext : Trace.next (x :: R0) s = x :: R0 := by
        simp only [Trace.next, if_neg h3, if_pos hsx]
      rw [Trace.after, hnext, ih hrest x R0, hsx]
      simp only [collapse, if_pos]
    · have hnext : Trace.next (x :: R0) s = s :: x :: R0 := by
        simp only [Trace.next, if_neg h3, if_neg hsx]
      have hxs : ¬ x = s := fun h => hsx h.symm
      rw [Trace.after, hnext, ih hrest s (x :: R0)]
      simp only [collapse, if_neg hxs, List.tail_cons]
      rw [collapse_cons s rest]
      simp

theorem Trace.after_nil (ss : List Nat) (hss : ∀ x ∈ ss, x < 3) :
    Trace.after [] ss = (collapse ss).reverse := by
  cases ss with
  | nil => rfl
  | cons s rest =>
    have hs : s < 3 := hss s (List.mem_cons_self _ _)
    have hrest : ∀ y ∈ rest, y < 3 := fun y hy => hss y (List.mem_cons_of_mem _ hy)
    have hnext : Trace.next [] s = [s] := by
      simp only [Trace.next, if_neg (show ¬ s = 3 by omega)]
    rw [Trace.after, hnext, Trace.after_cons rest hrest s []]
    conv_rhs => rw [collapse_cons s rest]
    simp

/-- While no detent sample is read every result is 0. -/
theorem Trace.events_no_detent (ss : List Nat) (hss : ∀ x ∈ ss, x < 3) :
    ∀ R : List Nat, Trace.events R ss = List.replicate ss.length 0 := by
  induction ss with
  | nil => intro R; rfl
  | cons s rest ih =>
    intro R
    have hs : s < 3 := hss s (List.mem_cons_self _ _)
    have hrest : ∀ y ∈ rest, y < 3 := fun y hy => hss y (List.mem_cons_of_mem _ hy)
    rw [Trace.events, ih hrest, List.length_cons, List.replicate_succ]
    simp only [Trace.out, if_neg (show ¬ s = 3 by omega)]

theorem expected_iff (L : List Nat) :
    (expected L = 1 ↔
      dropLeadingZero L = [1, 0, 2] ∨ dropLeadingZero L = [1, 2] ∨ dropLeadingZero L = [1, 0]) ∧
    (expected L = -1 ↔
      dropLeadingZero L = [2, 0, 1] ∨ dropLeadingZero L = [2, 0] ∨ dropLeadingZero L = [2, 1]) ∧
    (expected L = 0 ↔
      ¬ (dropLeadingZero L = [1, 0, 2] ∨ dropLeadingZero L = [1, 2] ∨
          dropLeadingZero L = [1, 0]) ∧
      ¬ (dropLeadingZero L = [2, 0, 1] ∨ dropLeadingZero L = [2, 0] ∨
          dropLeadingZero L = [2, 1])) := by
  unfold expected
  generalize dropLeadingZero L = D
  by_cases hA : D = [1, 0, 2] ∨ D = [1, 2] ∨ D = [1, 0]
  · have hB : ¬ (D = [2, 0, 1] ∨ D = [2, 0] ∨ D = [2, 1]) := by
      rcases hA with h | h | h <;> rw [h] <;> decide
    simp [hA, hB]
  · by_cases hB : D = [2, 0, 1] ∨ D = [2, 0] ∨ D = [2, 1]
    · simp [hA, hB]
    · simp [hA, hB]

/-! ## The sequences that are accepted, and the exchange of the pins -/

/-- C16: starting at the detent, with `unsigned long` of at least 32 bits, for every
sequence `ss` of samples in {0,1,2} followed by the sample 3, let L be `ss` with
consecutive repeats collapsed and then one leading 0 removed. The calls that read `ss`
return 0, and the final call returns +1 if and only if L is 1,0,2 or 1,2 or 1,0, returns
-1 if and only if L is 2,0,1 or 2,0 or 2,1, and returns 0 if and only if L is none of
the six. -/
theorem Encoder.accepted_sequences (wi wl : Nat) (hwi : 16 ≤ wi) (hwl : 32 ≤ wl)
    (pa pb : Int) (ss : List Nat) (hss : ∀ x ∈ ss, x < 3) :
    Encoder.events wi wl (Encoder.detent pa pb) (ss ++ [3]) =
      List.replicate ss.length 0 ++
        [(Encoder.poll wi wl (Encoder.after wi wl (Encoder.detent pa pb) ss) 3).2] ∧
    ((Encoder.poll wi wl (Encoder.after wi wl (Encoder.detent pa pb) ss) 3).2 = 1 ↔
      dropLeadingZero (collapse ss) = [1, 0, 2] ∨ dropLeadingZero (collapse ss) = [1, 2] ∨
        dropLeadingZero (collapse ss) = [1, 0]) ∧
    ((Encoder.poll wi wl (Encoder.after wi wl (Encoder.detent pa pb) ss) 3).2 = -1 ↔
      dropLeadingZero (collapse ss) = [2, 0, 1] ∨ dropLeadingZero (collapse ss) = [2, 0] ∨
        dropLeadingZero (collapse ss) = [2, 1]) ∧
    ((Encoder.poll wi wl (Encoder.after wi wl (Encoder.detent pa pb) ss) 3).2 = 0 ↔
      ¬ (dropLeadingZero (collapse ss) = [1, 0, 2] ∨ dropLeadingZero (collapse ss) = [1, 2] ∨
          dropLeadingZero (collapse ss) = [1, 0]) ∧
      ¬ (dropLeadingZero (collapse ss) = [2, 0, 1] ∨ dropLeadingZero (collapse ss) = [2, 0] ∨
          dropLeadingZero (collapse ss) = [2, 1])) := by
  have hss4 : ∀ x ∈ ss, x < 4 := fun x hx => Nat.lt_succ_of_lt (hss x hx)
  obtain ⟨hev, hbuf, hlt, hch⟩ := Trace.events_sim wi wl hwi hwl ss hss4
    (Encoder.detent pa pb) [] (by simp) List.chain'_nil rfl
  rw [Trace.after_nil ss hss] at hbuf hlt hch
  have hp := (Trace.poll_sim wi wl hwi hwl _ _ hlt hch hbuf 3 (by decide)).1
  have hr : (Encoder.poll wi wl (Encoder.after wi wl (Encoder.detent pa pb) ss) 3).2 =
      expected (collapse ss) := by
    rw [hp]
    simp [Trace.out]
  refine ⟨?_, ?_⟩
  · rw [Encoder.events_append, hev, Trace.events_no_detent ss hss]
    rfl
  · rw [hr]
    exact expected_iff (collapse ss)

/-- The samples 0,0,1,1,0,2,2 then 3 on a board with 16-bit `int` and 32-bit `long`:
collapsing gives 0,1,0,2, without the leading 0 that is 1,0,2, and the final call
returns +1. -/
theorem Encoder.accepted_sequences_witness :
    (16 ≤ 16 ∧ 32 ≤ 32 ∧ ∀ x ∈ [0, 0, 1, 1, 0, 2, 2], x < 3) ∧
    dropLeadingZero (collapse [0, 0, 1, 1, 0, 2, 2]) = [1, 0, 2] ∧
    Encoder.events 16 32 (Encoder.detent 2 3) [0, 0, 1, 1, 0, 2, 2, 3] =
      [0, 0, 0, 0, 0, 0, 0, 1] ∧
    (Encoder.poll 16 32 (Encoder.after 16 32 (Encoder.detent 2 3) [0, 0, 1, 1, 0, 2, 2]) 3).2
      = 1 :=
  ⟨by decide, by decide,
    ((Encoder.accepted_sequences 16 32 (by decide) (by decide) 2 3
      [0, 0, 1, 1, 0, 2, 2] (by decide)).1).trans (by decide),
    (Encoder.accepted_sequences 16 32 (by decide) (by decide) 2 3
      [0, 0, 1, 1, 0, 2, 2] (by decide)).2.1.mpr (by decide)⟩

/-- Exchanging the bits of a sample is reading the two pins the other way round. -/
theorem swap_sample (ra rb : Nat) (ha : ra ≤ 1) (hb : rb ≤ 1) :
    swap (Encoder.sample ra rb) = Encoder.sample rb ra := by
  interval_cases ra <;> interval_cases rb <;> decide

theorem swap_lt_three (s : Nat) (hs : s < 3) : swap s < 3 := by
  interval_cases s <;> decide

theorem swap_lt_four (s : Nat) (hs : s < 4) : swap s < 4 := by
  interval_cases s <;> decide

theorem swap_eq_three (s : Nat) (hs : s < 4) : swap s = 3 ↔ s = 3 := by
  interval_cases s <;> decide

theorem swap_inj (a b : Nat) (ha : a < 4) (hb : b < 4) : swap a = swap b ↔ a = b := by
  interval_cases a <;> interval_cases b <;> decide

/-- Exchanging the bits of every sample of a click reverses the result announced. -/
theorem expected_swap (L : List Nat) (hlt : ∀ x ∈ L, x < 3) :
    expected (L.map swap) = - expected L := by
  rcases L with _ | ⟨a, _ | ⟨b, _ | ⟨c, _ | ⟨d, _ | ⟨e, r⟩⟩⟩⟩⟩
  · decide
  · have ha : a < 3 := hlt a (by simp)
    interval_cases a <;> decide
  · have ha : a < 3 := hlt a (by simp)
    have hb : b < 3 := hlt b (by simp)
    interval_cases a <;> interval_cases b <;> decide
  · have ha : a < 3 := hlt a (by simp)
    have hb : b < 3 := hlt b (by simp)
    have hc : c < 3 := hlt c (by simp)
    interval_cases a <;> interval_cases b <;> interval_cases c <;> decide
  · have ha : a < 3 := hlt a (by simp)
    have hb : b < 3 := hlt b (by simp)
    have hc : c < 3 := hlt c (by simp)
    have hd : d < 3 := hlt d (by simp)
    interval_cases a <;> interval_cases b <;> interval_cases c <;> interval_cases d <;> decide
  · rw [expected_long _ (by simp), expected_long _ (by simp)]
    rfl

theorem Trace.next_lt (R : List Nat) (hlt : ∀ x ∈ R, x < 3) (s : Nat) (hs : s < 4) :
    ∀ x ∈ Trace.next R s, x < 3 := by
  unfold Trace.next
  by_cases h3 : s = 3
  · simp [h3]
  · rw [if_neg h3]
    cases R with
    | nil =>
      intro x hx
      simp only [List.mem_singleton] at hx
      omega
    | cons y R0 =>
      by_cases hsy : s = y
      · simp only [if_pos hsy]
        exact hlt
      · simp only [if_neg hsy]
        intro x hx
        rcases List.mem_cons.mp hx with h | h
        · omega
        · exact hlt x h

theorem Trace.next_swap (R : List Nat) (hlt : ∀ x ∈ R, x < 3) (s : Nat) (hs : s < 4) :
    Trace.next (R.map swap) (swap s) = (Trace.next R s).map swap := by
  unfold Trace.next
  by_cases h3 : s = 3
  · rw [if_pos ((swap_eq_three s hs).mpr h3), if_pos h3]
    rfl
  · rw [if_neg (fun h => h3 ((swap_eq_three s hs).mp h)), if_neg h3]
    cases R with
    | nil => rfl
    | cons y R0 =>
      have hy : y < 4 := Nat.lt_succ_of_lt (hlt y (List.mem_cons_self _ _))
      by_cases hsy : s = y
      · simp only [List.map_cons, if_pos hsy, if_pos ((swap_inj s y hs hy).mpr hsy)]
      · simp only [List.map_cons, if_neg hsy,
          if_neg (fun h => hsy ((swap_inj s y hs hy).mp h))]

theorem Trace.out_swap (R : List Nat) (hlt : ∀ x ∈ R, x < 3) (s : Nat) (hs : s < 4) :
    Trace.out (R.map swap) (swap s) = - Trace.out R s := by
  unfold Trace.out
  by_cases h3 : s = 3
  · rw [if_pos ((swap_eq_three s hs).mpr h3), if_pos h3, ← List.map_reverse]
    exact expected_swap R.reverse (fun x hx => hlt x (List.mem_reverse.mp hx))
  · rw [if_neg (fun h => h3 ((swap_eq_three s hs).mp h)), if_neg h3]
    rfl

theorem Trace.events_swap (ss : List Nat) (hss : ∀ x ∈ ss, x < 4) :
    ∀ R : List Nat, (∀ x ∈ R, x < 3) →
      Trace.events (R.map swap) (ss.map swap) = (Trace.events R ss).map (fun r => -r) := by
  induction ss with
  | nil => intro R _; rfl
  | cons s rest ih =>
    intro R hlt
    have hs : s < 4 := hss s (List.mem_cons_self _ _)
    have hrest : ∀ x ∈ rest, x < 4 := fun x hx => hss x (List.mem_cons_of_mem _ hx)
    rw [List.map_cons, Trace.events, Trace.events, List.map_cons, Trace.out_swap R hlt s hs,
      Trace.next_swap R hlt s hs, ih hrest _ (Trace.next_lt R hlt s hs)]

/-- C17: starting at the detent, for every sequence of samples in {0,1,2,3}, the
results of the calls on the sequence with the two bits of every sample exchanged are,
call by call, the negated results of the calls on the sequence itself. -/
theorem Encoder.pin_swap (wi wl : Nat) (hwi : 16 ≤ wi) (hwl : 32 ≤ wl) (pa pb : Int)
    (ss : List Nat) (hss : ∀ x ∈ ss, x < 4) :
    Encoder.events wi wl (Encoder.detent pa pb) (ss.map swap) =
      (Encoder.events wi wl (Encoder.detent pa pb) ss).map (fun r => -r) := by
  have hswap : ∀ x ∈ ss.map swap, x < 4 := by
    intro x hx
    obtain ⟨y, hy, rfl⟩ := List.mem_map.mp hx
    exact swap_lt_four y (hss y hy)
  have h1 := (Trace.events_sim wi wl hwi hwl ss hss (Encoder.detent pa pb) [] (by simp)
    List.chain'_nil rfl).1
  have h2 := (Trace.events_sim wi wl hwi hwl (ss.map swap) hswap (Encoder.detent pa pb) []
    (by simp) List.chain'_nil rfl).1
  rw [h1, h2]
  exact Trace.events_swap ss hss [] (by simp)

/-- A clockwise click, a pause and a counter-clockwise click, and the same with the
pins exchanged (16-bit `int`, 32-bit `long`). -/
theorem Encoder.pin_swap_witness :
    (16 ≤ 16 ∧ 32 ≤ 32 ∧ ∀ x ∈ [3, 1, 0, 2, 3, 3, 2, 0, 1, 3], x < 4) ∧
    Encoder.events 16 32 (Encoder.detent 2 3) [3, 1, 0, 2, 3, 3, 2, 0, 1, 3] =
      [0, 0, 0, 0, 1, 0, 0, 0, 0, -1] ∧
    Encoder.events 16 32 (Encoder.detent 2 3) [3, 2, 0, 1, 3, 3, 1, 0, 2, 3] =
      [0, 0, 0, 0, -1, 0, 0, 0, 0, 1] :=
  ⟨by decide, by decide,
    (Encoder.pin_swap 16 32 (by decide) (by decide) 2 3 [3, 1, 0, 2, 3, 3, 2, 0, 1, 3]
      (by decide)).trans (by decide)⟩

end RotaryEncoder
